import Mathlib

/-!
Verification of the BSON document view/iterator core of
`src/bsoncxx/document/view.hpp`.

Buffers are modelled as lists of byte values (`List Nat`, each entry a byte).
The `view` class stores a borrowed data pointer and a length; we model the
bytes reachable through the pointer as a `List Nat` and keep the stored
length as a separate field, exactly as the class keeps `_data` and
`_length` separately.

The header implements inline: the two constructors, `data()`, `length()`,
`empty()` and the `k_empty` constant.  `begin`, `end`, `operator++`,
`find`, `operator[]` and the two equality operators are only declared in
the header; their behaviour is modelled from the spec, as are the external
element-decoding capability and the binary grammar
`document := int32_le(total_length) element* 0x00`,
`element := type_tag(1 byte) cstring(key) value`.
-/

namespace Bson

/-- A decoded element: borrowed key bytes (without the NUL terminator), the
type tag byte, the byte offset of the element inside the document buffer,
the element's total encoded byte span, and the raw value bytes. -/
structure Element where
  key : List Nat
  btype : Nat
  offset : Nat
  size : Nat
  value : List Nat
deriving DecidableEq

/-- The view over a document buffer: `_data` models the bytes reachable
through the stored data pointer, `_length` the stored byte count
(`std::size_t _length`). -/
structure View where
  dat : List Nat
  len : Nat
deriving DecidableEq

/-- The magic representation of an empty BSON document (`view::k_empty`):
the number 5 in little endian followed by a terminating zero byte. -/
def k_empty : List Nat := [5, 0, 0, 0, 0]

/-- `view::view()` : the default constructor points at `k_empty` with
length `sizeof(k_empty)`. -/
def View.default : View := ⟨k_empty, k_empty.length⟩

/-- `view::data()` : raw bytes accessor. -/
def View.data (v : View) : List Nat := v.dat

/-- `view::length()` : the stored length. -/
def View.length (v : View) : Nat := v.len

/-- `view::empty()` : `_length == sizeof(k_empty)`. -/
def View.empty (v : View) : Bool := v.len == k_empty.length

/-- Modelled from the spec: a cursor is either positioned at a decoded
element or the past-the-end sentinel
(states = positioned(offset), past-the-end). -/
inductive Cursor where
  | positioned (e : Element)
  | pastEnd
deriving DecidableEq

/-- Read a 4-byte little-endian integer at `off`. -/
def readLE32 (buf : List Nat) (off : Nat) : Option Nat :=
  match buf.get? off, buf.get? (off + 1), buf.get? (off + 2), buf.get? (off + 3) with
  | some b0, some b1, some b2, some b3 => some (b0 + 256 * (b1 + 256 * (b2 + 256 * b3)))
  | _, _, _, _ => none

/-- The bytes of a NUL-terminated cstring (terminator excluded), `none` if
no terminator occurs. -/
def takeCString : List Nat → Option (List Nat)
  | [] => none
  | b :: bs => if b = 0 then some [] else (takeCString bs).map (fun k => b :: k)

/-- Modelled from the spec: the byte span of the type-specific value
encoding of the external element-decoding capability (double, string,
embedded document, array, binary, ObjectId, bool, datetime, null, int32,
timestamp, int64). -/
def valueSize (t : Nat) (buf : List Nat) (voff : Nat) : Option Nat :=
  if t = 1 then some 8
  else if t = 2 then (readLE32 buf voff).map (fun n => 4 + n)
  else if t = 3 then readLE32 buf voff
  else if t = 4 then readLE32 buf voff
  else if t = 5 then (readLE32 buf voff).map (fun n => 5 + n)
  else if t = 7 then some 12
  else if t = 8 then some 1
  else if t = 9 then some 8
  else if t = 10 then some 0
  else if t = 16 then some 4
  else if t = 17 then some 8
  else if t = 18 then some 8
  else none

/-- Modelled from the spec: the external element-decoding capability.
Given a buffer and an offset it yields the element's key, type tag, value
and encoded byte length, following the grammar
`element := type_tag(1 byte) cstring(key) value`. -/
def decodeElem (buf : List Nat) (off : Nat) : Option Element :=
  match buf.get? off with
  | none => none
  | some t =>
    match takeCString (buf.drop (off + 1)) with
    | none => none
    | some k =>
      let voff := off + 1 + k.length + 1
      match valueSize t buf voff with
      | none => none
      | some vs => some ⟨k, t, off, 1 + k.length + 1 + vs, (buf.drop voff).take vs⟩

/-- Modelled from the spec: the cursor obtained at byte offset `off` — the
end sentinel when the byte there is the terminator, otherwise positioned
at the element decoded there. -/
def cursorAt (buf : List Nat) (off : Nat) : Cursor :=
  match buf.get? off with
  | some 0 => Cursor.pastEnd
  | _ =>
    match decodeElem buf off with
    | some e => Cursor.positioned e
    | none => Cursor.pastEnd

/-- Modelled from the spec: `view::begin()` — if the byte immediately
following the 4-byte length prefix is the terminator, the end sentinel;
otherwise a cursor positioned at the element decoded at offset 4. -/
def View.begin (v : View) : Cursor := cursorAt v.dat 4

/-- Modelled from the spec: `view::end()` — the past-the-end sentinel. -/
def View.endc (_v : View) : Cursor := Cursor.pastEnd

/-- Modelled from the spec: `view::iterator::operator++` — the next offset
is the current offset plus the current element's encoded byte length; at
the terminator byte the cursor becomes the end sentinel, otherwise it is
positioned at the element decoded at the new offset. -/
def cursorNext (buf : List Nat) : Cursor → Cursor
  | Cursor.pastEnd => Cursor.pastEnd
  | Cursor.positioned e => cursorAt buf (e.offset + e.size)

/-- Modelled from the spec: `operator==(iterator, iterator)` — equal iff
both are the end sentinel or both hold elements with identical key, type
and byte offset. -/
def cursorEq : Cursor → Cursor → Bool
  | Cursor.pastEnd, Cursor.pastEnd => true
  | Cursor.positioned e, Cursor.positioned f =>
      e.key == f.key && e.btype == f.btype && e.offset == f.offset
  | _, _ => false

/-- Modelled from the spec: `find(key)`'s scan loop from a cursor — fuel
bounds the number of elements visited. -/
def findFrom (buf key : List Nat) : Nat → Cursor → Cursor
  | _, Cursor.pastEnd => Cursor.pastEnd
  | 0, c => c
  | Nat.succ fuel, Cursor.positioned e =>
    if e.key = key then Cursor.positioned e
    else findFrom buf key fuel (cursorNext buf (Cursor.positioned e))

/-- Modelled from the spec: `view::find(key)` — scans from `begin()`,
comparing keys by exact byte-wise equality. -/
def View.find (v : View) (key : List Nat) : Cursor :=
  findFrom v.dat key (v.dat.length + 1) v.begin

/-- Modelled from the spec: `view::operator[]` — the element found by
`find(key)`, or the invalid-element sentinel (modelled as `none`, whose
validity predicate is `Option.isSome`). -/
def View.getKey (v : View) (key : List Nat) : Option Element :=
  match v.find key with
  | Cursor.positioned e => some e
  | Cursor.pastEnd => none

/-- Modelled from the spec: `operator==(view, view)` — equal lengths and
byte-for-byte identical referenced ranges. -/
def viewEq (v w : View) : Bool :=
  v.len == w.len && v.dat.take v.len == w.dat.take w.len

/-- Modelled from the spec: `operator!=(view, view)`. -/
def viewNe (v w : View) : Bool := !viewEq v w

/-- Parse the element sequence starting at `off`: stops with the final
offset at the terminator byte, fails on malformed bytes or exhausted
fuel.  This is the ground truth of the grammar
`document := int32_le(total_length) element* 0x00`. -/
def parseElems (buf : List Nat) (off : Nat) : Nat → Option (List Element × Nat)
  | 0 => none
  | Nat.succ fuel =>
    match buf.get? off with
    | none => none
    | some 0 => some ([], off)
    | some _ =>
      match decodeElem buf off with
      | none => none
      | some e => (parseElems buf (off + e.size) fuel).map (fun p => (e :: p.1, p.2))

/-- The elements of the document held in `buf`, in encoding order. -/
def docElems (buf : List Nat) : Option (List Element) :=
  (parseElems buf 4 (buf.length + 1)).map Prod.fst

/-- Structural validity of a document buffer: at least 5 bytes, every
entry a byte value, the little-endian length prefix equals the buffer
length, and the element sequence parses with the terminator as the last
byte. -/
def validDoc (buf : List Nat) : Bool :=
  decide (5 ≤ buf.length) && buf.all (fun b => b < 256) &&
  (match readLE32 buf 0 with
   | some n => n == buf.length
   | none => false) &&
  (match parseElems buf 4 (buf.length + 1) with
   | some p => p.2 == buf.length - 1
   | none => false)

/-- The elements yielded by repeatedly incrementing a cursor until the end
sentinel (fuel-bounded). -/
def iterList (buf : List Nat) : Nat → Cursor → List Element
  | _, Cursor.pastEnd => []
  | 0, Cursor.positioned _ => []
  | Nat.succ fuel, Cursor.positioned e =>
      e :: iterList buf fuel (cursorNext buf (Cursor.positioned e))

/-- The offsets of an element sequence are consecutive: each element sits
at the running offset, which advances by its size, ending at `f`. -/
def offsChain : Nat → List Element → Nat → Prop
  | off, [], f => f = off
  | off, e :: es, f => e.offset = off ∧ offsChain (off + e.size) es f

/-- The public operations a caller can apply to a view (all of them
declared `const` in the header). -/
inductive Op where
  | opBegin
  | opEnd
  | opFind (key : List Nat)
  | opSubscript (key : List Nat)
  | opData
  | opLength
  | opEmpty
  | opTraverse
deriving DecidableEq

/-- Results of the public operations. -/
inductive Res where
  | rCursor (c : Cursor)
  | rElem (e : Option Element)
  | rBytes (bs : List Nat)
  | rNat (n : Nat)
  | rBool (b : Bool)
  | rElems (es : List Element)
deriving DecidableEq

/-- Apply one public operation to a view, returning the result together
with the view state afterwards.  Every member is a `const` member function
in the header, so each returns the view unchanged. -/
def applyOp (v : View) : Op → Res × View
  | Op.opBegin => (Res.rCursor v.begin, v)
  | Op.opEnd => (Res.rCursor v.endc, v)
  | Op.opFind key => (Res.rCursor (v.find key), v)
  | Op.opSubscript key => (Res.rElem (v.getKey key), v)
  | Op.opData => (Res.rBytes v.data, v)
  | Op.opLength => (Res.rNat v.length, v)
  | Op.opEmpty => (Res.rBool v.empty, v)
  | Op.opTraverse => (Res.rElems (iterList v.dat (v.dat.length + 1) v.begin), v)

/-- Run a sequence of public operations, threading the view state. -/
def runOps : View → List Op → List Res × View
  | v, [] => ([], v)
  | v, o :: os =>
    let r := applyOp v o
    let rest := runOps r.2 os
    (r.1 :: rest.1, rest.2)

/-- The document `{"a": 1, "b": 2}` (two int32 elements). -/
def docAB : List Nat :=
  [19, 0, 0, 0, 16, 97, 0, 1, 0, 0, 0, 16, 98, 0, 2, 0, 0, 0, 0]

/-- The first element of `docAB`: key "a", type int32, offset 4, span 7. -/
def elemA : Element := ⟨[97], 16, 4, 7, [1, 0, 0, 0]⟩

/-- The second element of `docAB`: key "b", type int32, offset 11, span 7. -/
def elemB : Element := ⟨[98], 16, 11, 7, [2, 0, 0, 0]⟩

lemma parse_succ (buf : List Nat) (off fuel : Nat) :
    parseElems buf off (fuel + 1) =
      match buf.get? off with
      | none => none
      | some 0 => some ([], off)
      | some _ =>
        match decodeElem buf off with
        | none => none
        | some e => (parseElems buf (off + e.size) fuel).map (fun p => (e :: p.1, p.2)) := rfl

lemma decodeElem_spec {buf : List Nat} {off : Nat} {e : Element}
    (h : decodeElem buf off = some e) : e.offset = off ∧ 2 ≤ e.size := by
  simp only [decodeElem] at h
  split at h
  · exact absurd h (by simp)
  · split at h
    · exact absurd h (by simp)
    · split at h
      · exact absurd h (by simp)
      · rw [Option.some.injEq] at h
        subst h
        refine ⟨rfl, ?_⟩
        simp [Element.size]
        omega

lemma parse_nil {buf : List Nat} {off fuel f : Nat}
    (h : parseElems buf off fuel = some ([], f)) :
    f = off ∧ buf.get? off = some 0 := by
  cases fuel with
  | zero => simp [parseElems] at h
  | succ fuel =>
    rw [parse_succ] at h
    split at h
    · exact absurd h (by simp)
    · rename_i hb
      rw [Option.some.injEq, Prod.mk.injEq] at h
      exact ⟨h.2.symm, hb⟩
    · split at h
      · exact absurd h (by simp)
      · rename_i e hd
        cases hp : parseElems buf (off + e.size) fuel with
        | none => rw [hp] at h; simp at h
        | some p => rw [hp] at h; simp at h

lemma parse_cons {buf : List Nat} {off fuel f : Nat} {e : Element} {es : List Element}
    (h : parseElems buf off fuel = some (e :: es, f)) :
    decodeElem buf off = some e ∧ e.offset = off ∧ 2 ≤ e.size ∧
      cursorAt buf off = Cursor.positioned e ∧
      ∃ fuel', fuel = fuel' + 1 ∧ parseElems buf (off + e.size) fuel' = some (es, f) := by
  cases fuel with
  | zero => simp [parseElems] at h
  | succ fuel =>
    rw [parse_succ] at h
    split at h
    · exact absurd h (by simp)
    · exact absurd h (by simp)
    · rename_i t htne ht
      split at h
      · exact absurd h (by simp)
      · rename_i e' hd
        cases hp : parseElems buf (off + e'.size) fuel with
        | none => rw [hp] at h; simp at h
        | some p =>
          rw [hp] at h
          simp only [Option.map_some', Option.some.injEq, Prod.mk.injEq,
            List.cons.injEq] at h
          obtain ⟨⟨he, hes⟩, hf⟩ := h
          subst he
          obtain ⟨hoff, hsz⟩ := decodeElem_spec hd
          refine ⟨hd, hoff, hsz, ?_, fuel, rfl, ?_⟩
          · cases t with
            | zero => exact absurd rfl htne
            | succ t =>
              rw [List.get?_eq_getElem?] at ht
              simp [cursorAt, ht, hd]
          · rw [hp]
            cases p
            simp only at hes hf
            simp [hes, hf]

lemma cursorAt_term {buf : List Nat} {off : Nat} (h : buf.get? off = some 0) :
    cursorAt buf off = Cursor.pastEnd := by
  rw [List.get?_eq_getElem?] at h
  simp [cursorAt, h]

lemma cursorAt_pos_inv {buf : List Nat} {off : Nat} {e : Element}
    (h : cursorAt buf off = Cursor.positioned e) : decodeElem buf off = some e := by
  unfold cursorAt at h
  split at h
  · exact absurd h (by simp)
  · split at h
    · rename_i e' hd
      rw [hd]
      cases h
      rfl
    · exact absurd h (by simp)

lemma parse_term {buf : List Nat} :
    ∀ {fuel off f : Nat} {es : List Element},
      parseElems buf off fuel = some (es, f) → buf.get? f = some 0 := by
  intro fuel
  induction fuel with
  | zero => intro off f es h; simp [parseElems] at h
  | succ fuel ih =>
    intro off f es h
    cases es with
    | nil =>
      obtain ⟨hf, hb⟩ := parse_nil h
      rw [hf]
      exact hb
    | cons e es =>
      obtain ⟨-, -, -, -, fuel', hfe, hp⟩ := parse_cons h
      have hfe' : fuel' = fuel := by omega
      rw [hfe'] at hp
      exact ih hp

lemma parse_chain {buf : List Nat} :
    ∀ {fuel off f : Nat} {es : List Element},
      parseElems buf off fuel = some (es, f) → offsChain off es f := by
  intro fuel
  induction fuel with
  | zero => intro off f es h; simp [parseElems] at h
  | succ fuel ih =>
    intro off f es h
    cases es with
    | nil => exact (parse_nil h).1
    | cons e es =>
      obtain ⟨-, hoff, -, -, fuel', hfe, hp⟩ := parse_cons h
      have hfe' : fuel' = fuel := by omega
      rw [hfe'] at hp
      exact ⟨hoff, ih hp⟩

lemma parse_sizes {buf : List Nat} :
    ∀ {fuel off f : Nat} {es : List Element},
      parseElems buf off fuel = some (es, f) → ∀ e ∈ es, 2 ≤ e.size := by
  intro fuel
  induction fuel with
  | zero => intro off f es h; simp [parseElems] at h
  | succ fuel ih =>
    intro off f es h
    cases es with
    | nil => intro e he; simp at he
    | cons e es =>
      obtain ⟨-, -, hsz, -, fuel', hfe, hp⟩ := parse_cons h
      have hfe' : fuel' = fuel := by omega
      rw [hfe'] at hp
      intro e' he'
      rcases List.mem_cons.mp he' with he' | he'
      · rw [he']; exact hsz
      · exact ih hp e' he'

lemma chain_ge_start :
    ∀ {es : List Element} {off f : Nat}, offsChain off es f → off ≤ f := by
  intro es
  induction es with
  | nil => intro off f h; exact Nat.le_of_eq h.symm
  | cons e es ih =>
    intro off f h
    exact le_trans (Nat.le_add_right off e.size) (ih h.2)

lemma chain_ge :
    ∀ {es : List Element} {off f : Nat}, offsChain off es f →
      ∀ j (hj : j < es.length), off ≤ (es.get ⟨j, hj⟩).offset := by
  intro es
  induction es with
  | nil => intro off f h j hj; simp at hj
  | cons e es ih =>
    intro off f h j hj
    cases j with
    | zero => simp [List.get, h.1]
    | succ j =>
      have := ih h.2 j (by simpa using hj)
      simp only [List.get_cons_succ]
      omega

lemma chain_lt :
    ∀ {es : List Element} {off f : Nat}, offsChain off es f →
      (∀ e ∈ es, 1 ≤ e.size) →
      ∀ i j (hi : i < j) (hj : j < es.length),
        (es.get ⟨i, lt_trans hi hj⟩).offset < (es.get ⟨j, hj⟩).offset := by
  intro es
  induction es with
  | nil => intro off f h hs i j hi hj; simp at hj
  | cons e es ih =>
    intro off f h hs i j hi hj
    cases j with
    | zero => omega
    | succ j =>
      cases i with
      | zero =>
        have hj' : j < es.length := by simpa using hj
        have h1 : off + e.size ≤ (es.get ⟨j, hj'⟩).offset := chain_ge h.2 j hj'
        have h2 : 1 ≤ e.size := hs e (List.mem_cons_self e es)
        have h0 : ((e :: es).get ⟨0, lt_trans hi hj⟩).offset = off := h.1
        have h3 : (e :: es).get ⟨j + 1, hj⟩ = es.get ⟨j, hj'⟩ := rfl
        rw [h0, h3]
        omega
      | succ i =>
        simp only [List.get_cons_succ]
        exact ih h.2 (fun e' he' => hs e' (List.mem_cons_of_mem e he')) i j
          (by omega) (by simpa using hj)

lemma chain_last :
    ∀ {es : List Element} {off f : Nat}, offsChain off es f →
      ∀ k (hk : k < es.length), k + 1 = es.length →
        f = (es.get ⟨k, hk⟩).offset + (es.get ⟨k, hk⟩).size := by
  intro es
  induction es with
  | nil => intro off f h k hk; simp at hk
  | cons e es ih =>
    intro off f h k hk hlen
    cases k with
    | zero =>
      cases es with
      | nil =>
        have h0 : (([e] : List Element).get ⟨0, hk⟩) = e := rfl
        rw [h0, h.1]
        exact h.2
      | cons e' es' =>
        simp only [List.length_cons] at hlen
        omega
    | succ k =>
      simp only [List.get_cons_succ]
      exact ih h.2 k (by simpa using hk) (by simpa using hlen)

lemma iter_of_parse {buf : List Nat} :
    ∀ {fuel off f : Nat} {es : List Element},
      parseElems buf off fuel = some (es, f) →
      iterList buf fuel (cursorAt buf off) = es := by
  intro fuel
  induction fuel with
  | zero => intro off f es h; simp [parseElems] at h
  | succ fuel ih =>
    intro off f es h
    cases es with
    | nil =>
      obtain ⟨-, hb⟩ := parse_nil h
      rw [cursorAt_term hb]
      simp [iterList]
    | cons e es =>
      obtain ⟨-, hoff, -, hat, fuel', hfe, hp⟩ := parse_cons h
      have hfe' : fuel' = fuel := by omega
      rw [hfe'] at hp
      rw [hat]
      show iterList buf (fuel + 1) (Cursor.positioned e) = e :: es
      rw [iterList]
      congr 1
      show iterList buf fuel (cursorAt buf (e.offset + e.size)) = es
      rw [hoff]
      exact ih hp

lemma steps_pos {buf : List Nat} :
    ∀ {fuel off f : Nat} {es : List Element},
      parseElems buf off fuel = some (es, f) →
      ∀ k (hk : k < es.length),
        (cursorNext buf)^[k] (cursorAt buf off) = Cursor.positioned (es.get ⟨k, hk⟩) := by
  intro fuel
  induction fuel with
  | zero => intro off f es h; simp [parseElems] at h
  | succ fuel ih =>
    intro off f es h k hk
    cases es with
    | nil => simp at hk
    | cons e es =>
      obtain ⟨-, hoff, -, hat, fuel', hfe, hp⟩ := parse_cons h
      have hfe' : fuel' = fuel := by omega
      rw [hfe'] at hp
      cases k with
      | zero => simpa using hat
      | succ k =>
        rw [Function.iterate_succ_apply]
        rw [hat]
        show (cursorNext buf)^[k] (cursorAt buf (e.offset + e.size)) =
          Cursor.positioned ((e :: es).get ⟨k + 1, hk⟩)
        rw [hoff]
        simpa using ih hp k (by simpa using hk)

lemma steps_end {buf : List Nat} :
    ∀ {fuel off f : Nat} {es : List Element},
      parseElems buf off fuel = some (es, f) →
      (cursorNext buf)^[es.length] (cursorAt buf off) = Cursor.pastEnd := by
  intro fuel
  induction fuel with
  | zero => intro off f es h; simp [parseElems] at h
  | succ fuel ih =>
    intro off f es h
    cases es with
    | nil =>
      obtain ⟨-, hb⟩ := parse_nil h
      simpa using cursorAt_term hb
    | cons e es =>
      obtain ⟨-, hoff, -, hat, fuel', hfe, hp⟩ := parse_cons h
      have hfe' : fuel' = fuel := by omega
      rw [hfe'] at hp
      rw [List.length_cons, Function.iterate_succ_apply, hat]
      show (cursorNext buf)^[es.length] (cursorAt buf (e.offset + e.size)) = Cursor.pastEnd
      rw [hoff]
      exact ih hp

lemma find_of_parse {buf key : List Nat} :
    ∀ {fuel off f : Nat} {es : List Element},
      parseElems buf off fuel = some (es, f) →
      findFrom buf key fuel (cursorAt buf off) =
        (match es.find? (fun e => e.key == key) with
         | some e => Cursor.positioned e
         | none => Cursor.pastEnd) := by
  intro fuel
  induction fuel with
  | zero => intro off f es h; simp [parseElems] at h
  | succ fuel ih =>
    intro off f es h
    cases es with
    | nil =>
      obtain ⟨-, hb⟩ := parse_nil h
      rw [cursorAt_term hb]
      simp [findFrom]
    | cons e es =>
      obtain ⟨-, hoff, -, hat, fuel', hfe, hp⟩ := parse_cons h
      have hfe' : fuel' = fuel := by omega
      rw [hfe'] at hp
      rw [hat]
      by_cases hk : e.key = key
      · rw [List.find?_cons_of_pos _ (by simp [hk])]
        show findFrom buf key (fuel + 1) (Cursor.positioned e) = Cursor.positioned e
        rw [findFrom]
        simp [hk]
      · rw [List.find?_cons_of_neg _ (by simp [hk])]
        show findFrom buf key (fuel + 1) (Cursor.positioned e) = _
        rw [findFrom]
        simp only [hk, if_false]
        show findFrom buf key fuel (cursorAt buf (e.offset + e.size)) = _
        rw [hoff]
        exact ih hp

lemma readLE32_inv {buf : List Nat} {off n : Nat} (h : readLE32 buf off = some n) :
    ∃ b0 b1 b2 b3, buf.get? off = some b0 ∧ buf.get? (off + 1) = some b1 ∧
      buf.get? (off + 2) = some b2 ∧ buf.get? (off + 3) = some b3 ∧
      b0 + 256 * (b1 + 256 * (b2 + 256 * b3)) = n := by
  simp only [readLE32] at h
  split at h
  · rename_i b0 b1 b2 b3 hb0 hb1 hb2 hb3
    rw [Option.some.injEq] at h
    exact ⟨b0, b1, b2, b3, hb0, hb1, hb2, hb3, h⟩
  · exact absurd h (by simp)

lemma validDoc_parse {buf : List Nat} (hv : validDoc buf = true) :
    5 ≤ buf.length ∧ readLE32 buf 0 = some buf.length ∧
      ∃ es, parseElems buf 4 (buf.length + 1) = some (es, buf.length - 1) := by
  simp only [validDoc, Bool.and_eq_true, decide_eq_true_eq] at hv
  obtain ⟨⟨⟨h5, hbytes⟩, hlen⟩, hparse⟩ := hv
  refine ⟨h5, ?_, ?_⟩
  · cases hr : readLE32 buf 0 with
    | none => rw [hr] at hlen; exact absurd hlen (by simp)
    | some n =>
      rw [hr] at hlen
      simp only [Nat.beq_eq_true_eq] at hlen
      rw [hlen]
  · cases hp : parseElems buf 4 (buf.length + 1) with
    | none => rw [hp] at hparse; exact absurd hparse (by simp)
    | some p =>
      rw [hp] at hparse
      simp only [Nat.beq_eq_true_eq] at hparse
      exact ⟨p.1, by rw [← hparse]⟩

lemma docElems_parse {buf : List Nat} {es : List Element} (hes : docElems buf = some es) :
    ∃ f, parseElems buf 4 (buf.length + 1) = some (es, f) := by
  unfold docElems at hes
  cases hp : parseElems buf 4 (buf.length + 1) with
  | none => rw [hp] at hes; simp at hes
  | some p =>
    obtain ⟨es', f⟩ := p
    rw [hp] at hes
    simp only [Option.map_some', Option.some.injEq] at hes
    subst hes
    exact ⟨f, rfl⟩

lemma docElems_parse_valid {buf : List Nat} {es : List Element}
    (hv : validDoc buf = true) (hes : docElems buf = some es) :
    parseElems buf 4 (buf.length + 1) = some (es, buf.length - 1) := by
  obtain ⟨f, hp⟩ := docElems_parse hes
  obtain ⟨-, -, es', hp'⟩ := validDoc_parse hv
  rw [hp, Option.some.injEq, Prod.mk.injEq] at hp'
  obtain ⟨he, hf⟩ := hp'
  rw [hp, hf]

lemma find?_first {α : Type} (p : α → Bool) :
    ∀ (es : List α) (k : Nat) (hk : k < es.length),
      p (es.get ⟨k, hk⟩) = true →
      (∀ j (hj : j < k), p (es.get ⟨j, lt_trans hj hk⟩) = false) →
      es.find? p = some (es.get ⟨k, hk⟩) := by
  intro es
  induction es with
  | nil => intro k hk; simp at hk
  | cons e es ih =>
    intro k hk hp hfirst
    cases k with
    | zero =>
      have hp' : p e = true := hp
      rw [List.find?_cons_of_pos _ hp']
      rfl
    | succ k =>
      have h0 : p e = false := hfirst 0 (Nat.succ_pos k)
      rw [List.find?_cons_of_neg _ (by simp [h0])]
      exact ih k (by simpa using hk) hp (fun j hj => hfirst (j + 1) (by omega))

lemma take_eq_iff {l₁ l₂ : List Nat} {n : Nat} :
    l₁.take n = l₂.take n ↔ ∀ i, i < n → l₁.get? i = l₂.get? i := by
  constructor
  · intro h i hi
    have h' := congrArg (fun l => l.get? i) h
    simp only [List.get?_eq_getElem?] at h' ⊢
    rwa [List.getElem?_take_of_lt hi, List.getElem?_take_of_lt hi] at h'
  · intro h
    apply List.ext_get?_iff.mpr
    intro m
    by_cases hm : m < n
    · simp only [List.get?_eq_getElem?]
      rw [List.getElem?_take_of_lt hm, List.getElem?_take_of_lt hm]
      have h' := h m hm
      simpa [List.get?_eq_getElem?] using h'
    · rw [List.get?_eq_none.mpr (by simp [List.length_take]; omega),
        List.get?_eq_none.mpr (by simp [List.length_take]; omega)]

/-- C10: a view built from any buffer `d` and length `l` reports `empty()`
true exactly when `l = 5`; the result depends only on the stored length,
never on the buffer content, so a 5-byte buffer different from `k_empty`
still reports empty. -/
theorem empty_depends_only_on_length :
    (∀ (d : List Nat) (l : Nat), (View.mk d l).empty = decide (l = 5)) ∧
    (∀ (d d' : List Nat) (l : Nat), (View.mk d l).empty = (View.mk d' l).empty) ∧
    (View.mk [1, 2, 3, 4, 5] 5).empty = true := by
  refine ⟨?_, ?_, ?_⟩
  · intro d l
    show (l == 5) = decide (l = 5)
    by_cases h : l = 5 <;> simp [h]
  · intro d d' l
    rfl
  · rfl

/-- C2: on a structurally valid document, `begin()` is the cursor at
offset 4: the end sentinel exactly when the byte after the length prefix
is the terminator (the zero-element document), and otherwise positioned
at the element decoded at offset 4. -/
theorem begin_first_element (buf : List Nat) (es : List Element)
    (hv : validDoc buf = true) (hes : docElems buf = some es) :
    (View.mk buf buf.length).begin = cursorAt buf 4 ∧
    (buf.get? 4 = some 0 → (View.mk buf buf.length).begin = Cursor.pastEnd) ∧
    ((View.mk buf buf.length).begin = Cursor.pastEnd ↔ es = []) ∧
    (buf.get? 4 ≠ some 0 →
      ∃ e es', es = e :: es' ∧ decodeElem buf 4 = some e ∧
        (View.mk buf buf.length).begin = Cursor.positioned e ∧ e.offset = 4) := by
  obtain ⟨f, hp⟩ := docElems_parse hes
  refine ⟨rfl, ?_, ?_, ?_⟩
  · intro h0
    exact cursorAt_term h0
  · constructor
    · intro hb
      cases es with
      | nil => rfl
      | cons e es' =>
        obtain ⟨-, -, -, hat, -⟩ := parse_cons hp
        have hb' : cursorAt buf 4 = Cursor.pastEnd := hb
        rw [hat] at hb'
        exact absurd hb' (by simp)
    · intro he
      subst he
      obtain ⟨-, hb⟩ := parse_nil hp
      exact cursorAt_term hb
  · intro hne
    cases es with
    | nil =>
      obtain ⟨-, hb⟩ := parse_nil hp
      exact absurd hb hne
    | cons e es' =>
      obtain ⟨hd, hoff, -, hat, -⟩ := parse_cons hp
      exact ⟨e, es', rfl, hd, hat, hoff⟩

/-- Witness for C2 at the concrete document docAB. -/
theorem begin_first_element_witness :
    validDoc docAB = true ∧ docElems docAB = some [elemA, elemB] ∧
    ((View.mk docAB docAB.length).begin = cursorAt docAB 4 ∧
     (docAB.get? 4 = some 0 → (View.mk docAB docAB.length).begin = Cursor.pastEnd) ∧
     ((View.mk docAB docAB.length).begin = Cursor.pastEnd ↔
       ([elemA, elemB] : List Element) = []) ∧
     (docAB.get? 4 ≠ some 0 →
       ∃ e es', ([elemA, elemB] : List Element) = e :: es' ∧
         decodeElem docAB 4 = some e ∧
         (View.mk docAB docAB.length).begin = Cursor.positioned e ∧ e.offset = 4)) :=
  ⟨by decide, by decide,
    begin_first_element docAB [elemA, elemB] (by decide) (by decide)⟩

/-- C3: on a structurally valid document, incrementing the cursor
positioned at the k-th element moves to the cursor at offset
`offset + size`; when a next element exists it sits exactly there, and
after the last element the byte at the new offset is the terminator and
the cursor becomes the end sentinel. -/
theorem increment_advances (buf : List Nat) (es : List Element)
    (hv : validDoc buf = true) (hes : docElems buf = some es) :
    ∀ k (hk : k < es.length),
      cursorNext buf (Cursor.positioned (es.get ⟨k, hk⟩)) =
        cursorAt buf ((es.get ⟨k, hk⟩).offset + (es.get ⟨k, hk⟩).size) ∧
      (∀ h2 : k + 1 < es.length,
        cursorNext buf (Cursor.positioned (es.get ⟨k, hk⟩)) =
          Cursor.positioned (es.get ⟨k + 1, h2⟩) ∧
        (es.get ⟨k + 1, h2⟩).offset =
          (es.get ⟨k, hk⟩).offset + (es.get ⟨k, hk⟩).size) ∧
      (k + 1 = es.length →
        buf.get? ((es.get ⟨k, hk⟩).offset + (es.get ⟨k, hk⟩).size) = some 0 ∧
        cursorNext buf (Cursor.positioned (es.get ⟨k, hk⟩)) = Cursor.pastEnd) := by
  obtain ⟨f, hp⟩ := docElems_parse hes
  intro k hk
  have hk_pos := steps_pos hp k hk
  refine ⟨rfl, ?_, ?_⟩
  · intro h2
    have hk1_pos := steps_pos hp (k + 1) h2
    rw [Function.iterate_succ_apply', hk_pos] at hk1_pos
    refine ⟨hk1_pos, ?_⟩
    have hca : cursorAt buf ((es.get ⟨k, hk⟩).offset + (es.get ⟨k, hk⟩).size) =
        Cursor.positioned (es.get ⟨k + 1, h2⟩) := hk1_pos
    exact (decodeElem_spec (cursorAt_pos_inv hca)).1
  · intro hlast
    have hend := steps_end hp
    rw [← hlast, Function.iterate_succ_apply', hk_pos] at hend
    have hchain := parse_chain hp
    have hfeq := chain_last hchain k hk hlast
    refine ⟨?_, hend⟩
    rw [← hfeq]
    exact parse_term hp

/-- Witness for C3 at the concrete document docAB, stepping from the
first to the second element and from the second to the end sentinel. -/
theorem increment_advances_witness :
    validDoc docAB = true ∧ docElems docAB = some [elemA, elemB] ∧
    cursorNext docAB (Cursor.positioned elemA) = Cursor.positioned elemB ∧
    cursorNext docAB (Cursor.positioned elemB) = Cursor.pastEnd :=
  ⟨by decide, by decide,
    ((increment_advances docAB [elemA, elemB] (by decide) (by decide) 0
      (by decide)).2.1 (by decide)).1,
    ((increment_advances docAB [elemA, elemB] (by decide) (by decide) 1
      (by decide)).2.2 (by decide)).2⟩

/-- C1: on a structurally valid document, iterating from `begin()` yields
exactly the parsed elements in encoding order (with their keys, types,
offsets and spans), the k-th increment step is positioned at the k-th
element, and the N-th step from `begin()` reaches the end sentinel. -/
theorem iteration_yields_all_elements (buf : List Nat) (es : List Element)
    (hv : validDoc buf = true) (hes : docElems buf = some es) :
    iterList buf (buf.length + 1) ((View.mk buf buf.length).begin) = es ∧
    (cursorNext buf)^[es.length] ((View.mk buf buf.length).begin) = Cursor.pastEnd ∧
    ∀ k (hk : k < es.length),
      (cursorNext buf)^[k] ((View.mk buf buf.length).begin) =
        Cursor.positioned (es.get ⟨k, hk⟩) := by
  obtain ⟨f, hp⟩ := docElems_parse hes
  exact ⟨iter_of_parse hp, steps_end hp, fun k hk => steps_pos hp k hk⟩

/-- Witness for C1 at the concrete document docAB with two elements. -/
theorem iteration_yields_all_elements_witness :
    validDoc docAB = true ∧ docElems docAB = some [elemA, elemB] ∧
    iterList docAB (docAB.length + 1) ((View.mk docAB docAB.length).begin) =
      [elemA, elemB] ∧
    (cursorNext docAB)^[2] ((View.mk docAB docAB.length).begin) = Cursor.pastEnd :=
  ⟨by decide, by decide,
    (iteration_yields_all_elements docAB [elemA, elemB] (by decide) (by decide)).1,
    (iteration_yields_all_elements docAB [elemA, elemB] (by decide) (by decide)).2.1⟩

/-- C4: on a structurally valid document, `find(key)` equals the first
element of the parsed top-level sequence whose key is byte-wise equal to
`key` (first occurrence wins among duplicates), and the end sentinel when
no top-level element matches; nested sub-documents are never searched
because only the top-level sequence is scanned. -/
theorem find_first_match (buf : List Nat) (es : List Element) (key : List Nat)
    (hv : validDoc buf = true) (hes : docElems buf = some es) :
    ((View.mk buf buf.length).find key =
      (match es.find? (fun e => e.key == key) with
       | some e => Cursor.positioned e
       | none => Cursor.pastEnd)) ∧
    ((∀ e ∈ es, e.key ≠ key) → (View.mk buf buf.length).find key = Cursor.pastEnd) ∧
    (∀ k (hk : k < es.length), (es.get ⟨k, hk⟩).key = key →
      (∀ j (hj : j < k), (es.get ⟨j, lt_trans hj hk⟩).key ≠ key) →
      (View.mk buf buf.length).find key = Cursor.positioned (es.get ⟨k, hk⟩)) := by
  obtain ⟨f, hp⟩ := docElems_parse hes
  have hmain : (View.mk buf buf.length).find key =
      (match es.find? (fun e => e.key == key) with
       | some e => Cursor.positioned e
       | none => Cursor.pastEnd) := find_of_parse hp
  refine ⟨hmain, ?_, ?_⟩
  · intro hnone
    have h0 : es.find? (fun e => e.key == key) = none :=
      List.find?_eq_none.mpr (fun e he => by simpa using hnone e he)
    rw [hmain, h0]
  · intro k hk hkey hfirst
    have h0 : es.find? (fun e => e.key == key) = some (es.get ⟨k, hk⟩) :=
      find?_first (fun e => e.key == key) es k hk (by simpa using hkey)
        (fun j hj => by simpa using hfirst j hj)
    rw [hmain, h0]

/-- Witness for C4 at docAB: the key "b" finds the second element, a
missing key yields the end sentinel. -/
theorem find_first_match_witness :
    validDoc docAB = true ∧ docElems docAB = some [elemA, elemB] ∧
    (View.mk docAB docAB.length).find [98] =
      (match ([elemA, elemB] : List Element).find? (fun e => e.key == [98]) with
       | some e => Cursor.positioned e
       | none => Cursor.pastEnd) ∧
    (View.mk docAB docAB.length).find [98] = Cursor.positioned elemB ∧
    (View.mk docAB docAB.length).find [99] = Cursor.pastEnd :=
  by
  refine ⟨by decide, by decide, ?_, ?_, ?_⟩
  · exact (find_first_match docAB [elemA, elemB] [98] (by decide) (by decide)).1
  · have h1 : validDoc docAB = true := by decide
    have h2 : docElems docAB = some [elemA, elemB] := by decide
    have hk : (1 : Nat) < ([elemA, elemB] : List Element).length := by decide
    have hkey : (([elemA, elemB] : List Element).get ⟨1, hk⟩).key = [98] := rfl
    refine (find_first_match docAB [elemA, elemB] [98] h1 h2).2.2 1 hk hkey ?_
    intro j hj
    have hj0 : j = 0 := by omega
    subst hj0
    intro hc
    exact absurd (show ([97] : List Nat) = [98] from hc) (by decide)
  · exact (find_first_match docAB [elemA, elemB] [99] (by decide)
      (by decide)).2.1 (by decide)

/-- C5: subscript lookup returns a valid element (the sentinel's validity
predicate holds) exactly when `find(key)` is not the end sentinel, and in
that case the very element `find` designates; on a miss it returns the
invalid-element sentinel rather than signalling an error. -/
theorem subscript_matches_find (buf : List Nat) (es : List Element) (key : List Nat)
    (hv : validDoc buf = true) (hes : docElems buf = some es) :
    (((View.mk buf buf.length).getKey key).isSome = true ↔
      (View.mk buf buf.length).find key ≠ Cursor.pastEnd) ∧
    (∀ e, (View.mk buf buf.length).find key = Cursor.positioned e →
      (View.mk buf buf.length).getKey key = some e) ∧
    ((View.mk buf buf.length).find key = Cursor.pastEnd →
      (View.mk buf buf.length).getKey key = none) ∧
    ((View.mk buf buf.length).getKey key = es.find? (fun e => e.key == key)) := by
  obtain ⟨f, hp⟩ := docElems_parse hes
  have hmain : (View.mk buf buf.length).find key =
      (match es.find? (fun e => e.key == key) with
       | some e => Cursor.positioned e
       | none => Cursor.pastEnd) := find_of_parse hp
  refine ⟨?_, ?_, ?_, ?_⟩
  · cases hc : (View.mk buf buf.length).find key with
    | positioned e => simp [View.getKey, hc]
    | pastEnd => simp [View.getKey, hc]
  · intro e hc
    simp [View.getKey, hc]
  · intro hc
    simp [View.getKey, hc]
  · cases hf : es.find? (fun e => e.key == key) with
    | some e =>
      rw [hf] at hmain
      have hm : (View.mk buf buf.length).find key = Cursor.positioned e := hmain
      simp [View.getKey, hm]
    | none =>
      rw [hf] at hmain
      have hm : (View.mk buf buf.length).find key = Cursor.pastEnd := hmain
      simp [View.getKey, hm]

/-- Witness for C5 at docAB: present key "a" and absent key "c". -/
theorem subscript_matches_find_witness :
    validDoc docAB = true ∧ docElems docAB = some [elemA, elemB] ∧
    (View.mk docAB docAB.length).getKey [97] =
      ([elemA, elemB] : List Element).find? (fun e => e.key == [97]) ∧
    (View.mk docAB docAB.length).getKey [99] = none :=
  ⟨by decide, by decide,
    (subscript_matches_find docAB [elemA, elemB] [97] (by decide) (by decide)).2.2.2,
    (subscript_matches_find docAB [elemA, elemB] [99] (by decide) (by decide)).2.2.1
      (by decide)⟩

/-- C8: two cursors compare equal exactly when both are the end sentinel
or both hold elements of identical key, type tag and byte offset; a
positioned cursor never equals the end sentinel; and on a structurally
valid document two positioned cursors drawn from the element sequence are
equal exactly when they are the same decode position (same index). -/
theorem iterator_equality (buf : List Nat) (es : List Element)
    (hv : validDoc buf = true) (hes : docElems buf = some es) :
    (∀ c d : Cursor, cursorEq c d = true ↔
      ((c = Cursor.pastEnd ∧ d = Cursor.pastEnd) ∨
       ∃ e1 e2, c = Cursor.positioned e1 ∧ d = Cursor.positioned e2 ∧
         e1.key = e2.key ∧ e1.btype = e2.btype ∧ e1.offset = e2.offset)) ∧
    (∀ e : Element, cursorEq (Cursor.positioned e) Cursor.pastEnd = false ∧
      cursorEq Cursor.pastEnd (Cursor.positioned e) = false) ∧
    (∀ i j (hi : i < es.length) (hj : j < es.length),
      (cursorEq (Cursor.positioned (es.get ⟨i, hi⟩))
        (Cursor.positioned (es.get ⟨j, hj⟩)) = true ↔ i = j)) := by
  obtain ⟨f, hp⟩ := docElems_parse hes
  have hchain := parse_chain hp
  have hsizes : ∀ e ∈ es, 1 ≤ e.size :=
    fun e he => le_trans (by omega) (parse_sizes hp e he)
  refine ⟨?_, ?_, ?_⟩
  · intro c d
    cases c <;> cases d <;> simp [cursorEq, and_assoc]
  · intro e
    exact ⟨rfl, rfl⟩
  · intro i j hi hj
    constructor
    · intro h
      simp only [cursorEq, Bool.and_eq_true, beq_iff_eq] at h
      obtain ⟨⟨-, -⟩, hoff⟩ := h
      rcases Nat.lt_trichotomy i j with hij | hij | hij
      · exact absurd hoff (Nat.ne_of_lt (chain_lt hchain hsizes i j hij hj))
      · exact hij
      · exact absurd hoff.symm (Nat.ne_of_lt (chain_lt hchain hsizes j i hij hi))
    · intro h
      subst h
      simp [cursorEq]

/-- Witness for C8 at docAB: distinct positions are unequal, a positioned
cursor never equals the end sentinel. -/
theorem iterator_equality_witness :
    validDoc docAB = true ∧ docElems docAB = some [elemA, elemB] ∧
    (cursorEq (Cursor.positioned elemA) Cursor.pastEnd = false ∧
     cursorEq Cursor.pastEnd (Cursor.positioned elemA) = false) ∧
    (cursorEq (Cursor.positioned elemA) (Cursor.positioned elemB) = true ↔
      (0 : Nat) = 1) :=
  ⟨by decide, by decide,
    (iterator_equality docAB [elemA, elemB] (by decide) (by decide)).2.1 elemA,
    (iterator_equality docAB [elemA, elemB] (by decide) (by decide)).2.2 0 1
      (by decide) (by decide)⟩

lemma applyOp_snd (v : View) (o : Op) : (applyOp v o).2 = v := by
  cases o <;> rfl

/-- C6: on a structurally valid document the following are equivalent:
`empty()` is true; the stored length is 5; the buffer is exactly
`{0x05,0x00,0x00,0x00,0x00}`; `begin() == end()`.  The default-constructed
view has length 5, is empty, and its begin equals its end. -/
theorem empty_iff_length_five (buf : List Nat) (hv : validDoc buf = true) :
    ((View.mk buf buf.length).empty = true ↔ (View.mk buf buf.length).length = 5) ∧
    ((View.mk buf buf.length).length = 5 ↔ buf = k_empty) ∧
    ((View.mk buf buf.length).length = 5 ↔
      cursorEq ((View.mk buf buf.length).begin) ((View.mk buf buf.length).endc) = true) ∧
    (View.default.length = 5 ∧ View.default.empty = true ∧
      cursorEq View.default.begin View.default.endc = true) := by
  obtain ⟨h5, hr, es, hp⟩ := validDoc_parse hv
  have hnil_of_5 : buf.length = 5 → es = [] := by
    intro hl
    cases es with
    | nil => rfl
    | cons e es' =>
      have hchain := parse_chain hp
      have hs : 2 ≤ e.size := parse_sizes hp e (List.mem_cons_self e es')
      have h2 : 4 + e.size ≤ buf.length - 1 := chain_ge_start hchain.2
      omega
  have hterm_of_5 : buf.length = 5 → buf.get? 4 = some 0 := by
    intro hl
    have hn := hnil_of_5 hl
    subst hn
    exact (parse_nil hp).2
  have hbuf_of_5 : buf.length = 5 → buf = k_empty := by
    intro hl
    obtain ⟨b0, b1, b2, b3, hb0, hb1, hb2, hb3, hsum⟩ := readLE32_inv hr
    rw [hl] at hsum
    have e0 : b0 = 5 := by omega
    have e1 : b1 = 0 := by omega
    have e2 : b2 = 0 := by omega
    have e3 : b3 = 0 := by omega
    subst e0
    subst e1
    subst e2
    subst e3
    have hb4 := hterm_of_5 hl
    apply List.ext_get?_iff.mpr
    intro n
    match n with
    | 0 => rw [hb0]; decide
    | 1 => rw [hb1]; decide
    | 2 => rw [hb2]; decide
    | 3 => rw [hb3]; decide
    | 4 => rw [hb4]; decide
    | (m + 5) =>
      rw [List.get?_eq_none.mpr (by omega),
        List.get?_eq_none.mpr (by simp [k_empty])]
  refine ⟨?_, ?_, ?_, rfl, rfl, by decide⟩
  · show (buf.length == 5) = true ↔ buf.length = 5
    exact beq_iff_eq
  · constructor
    · intro hl
      exact hbuf_of_5 hl
    · intro hb
      show buf.length = 5
      rw [hb]
      rfl
  · constructor
    · intro hl
      have hb4 := hterm_of_5 hl
      have hbe : (View.mk buf buf.length).begin = Cursor.pastEnd := cursorAt_term hb4
      rw [hbe]
      rfl
    · intro hc
      have hbe : (View.mk buf buf.length).begin = Cursor.pastEnd := by
        cases hcb : (View.mk buf buf.length).begin with
        | pastEnd => rfl
        | positioned e =>
          rw [hcb] at hc
          simp [cursorEq, View.endc] at hc
      cases es with
      | nil =>
        have h4 : buf.length - 1 = 4 := (parse_nil hp).1
        show buf.length = 5
        omega
      | cons e es' =>
        obtain ⟨-, -, -, hat, -⟩ := parse_cons hp
        have hca : cursorAt buf 4 = Cursor.pastEnd := hbe
        rw [hat] at hca
        exact absurd hca (by simp)

/-- Witness for C6 at the concrete one-element and zero-element documents. -/
theorem empty_iff_length_five_witness :
    validDoc docAB = true ∧
    ((View.mk docAB docAB.length).empty = true ↔
      (View.mk docAB docAB.length).length = 5) ∧
    ((View.mk docAB docAB.length).length = 5 ↔ docAB = k_empty) ∧
    ((View.mk docAB docAB.length).length = 5 ↔
      cursorEq ((View.mk docAB docAB.length).begin)
        ((View.mk docAB docAB.length).endc) = true) ∧
    (View.default.length = 5 ∧ View.default.empty = true ∧
      cursorEq View.default.begin View.default.endc = true) :=
  ⟨by decide, empty_iff_length_five docAB (by decide)⟩

/-- C7: two views compare equal exactly when their referenced byte ranges
have equal length and byte-for-byte identical content (the bytes below the
stored length), independently of buffer identity; inequality is the
negation. -/
theorem view_equality_bytewise :
    (∀ v w : View, viewEq v w = true ↔
      (v.len = w.len ∧ ∀ i, i < v.len → v.dat.get? i = w.dat.get? i)) ∧
    (∀ v w : View, viewNe v w = !viewEq v w) := by
  constructor
  · intro v w
    constructor
    · intro h
      simp only [viewEq, Bool.and_eq_true, beq_iff_eq] at h
      obtain ⟨hl, ht⟩ := h
      refine ⟨hl, ?_⟩
      rw [← hl] at ht
      exact take_eq_iff.mp ht
    · rintro ⟨hl, hpt⟩
      simp only [viewEq, Bool.and_eq_true, beq_iff_eq]
      refine ⟨hl, ?_⟩
      rw [← hl]
      exact take_eq_iff.mpr hpt
  · intro v w
    rfl

/-- C9: running any sequence of public operations threads the view state
unchanged (every member is `const`): each result is a function of the
original view alone, the data and length fields are untouched, and in
particular every `begin()` in the sequence returns the same restarted
cursor and every full traversal yields the identical element sequence. -/
theorem begin_restart_nonconsuming :
    (∀ (v : View) (ops : List Op),
      runOps v ops = (ops.map (fun o => (applyOp v o).1), v)) ∧
    (∀ (v : View) (o : Op),
      ((applyOp v o).2).dat = v.dat ∧ ((applyOp v o).2).len = v.len) ∧
    (∀ v : View, (applyOp v Op.opBegin).1 = Res.rCursor v.begin ∧
      (applyOp v Op.opTraverse).1 =
        Res.rElems (iterList v.dat (v.dat.length + 1) v.begin)) := by
  refine ⟨?_, ?_, ?_⟩
  · intro v ops
    induction ops with
    | nil => rfl
    | cons o os ih =>
      show ((applyOp v o).1 :: (runOps (applyOp v o).2 os).1,
        (runOps (applyOp v o).2 os).2) =
        ((applyOp v o).1 :: os.map (fun o => (applyOp v o).1), v)
      rw [applyOp_snd, ih]
  · intro v o
    rw [applyOp_snd]
    exact ⟨rfl, rfl⟩
  · intro v
    exact ⟨rfl, rfl⟩

end Bson
